import Mathlib

/-!
Verification of the token-rewriting core of `terraform-clean-syntax`
(`main.go`): the trim utility `trimNewlines`, the value-expression
simplifier `cleanValueExpr`, the type-constraint simplifier
`cleanTypeExpr`, and the structural walker `cleanBody`, together with
theorems settling the claims of the specification about them.

The Go code operates on `hclwrite.Tokens` (a slice of tokens, each with a
`Type` from `hclsyntax` and raw `Bytes`).  We embed a token as a pair of a
kind (the closed classification the core inspects) and its raw text, and a
token sequence as a `List Token`.  Go slice expressions that can panic
(`tokens[start:end]` with `start > end`) are modelled by returning
`Option`: `none` is a runtime panic.
-/

set_option autoImplicit false

namespace TfCleanSyntax

/-- The token kinds inspected or produced by the core, mirroring the
`hclsyntax.Token...` constants used in `main.go`.  Every other kind of
token is represented by `TokenOther`: the code never matches on it. -/
inductive TokenType where
  | TokenOQuote
  | TokenCQuote
  | TokenTemplateInterp
  | TokenTemplateSeqEnd
  | TokenQuotedLit
  | TokenIdent
  | TokenOParen
  | TokenCParen
  | TokenNewline
  | TokenOther
  deriving DecidableEq, Repr

/-- A lexical token: a kind plus raw textual content, mirroring
`hclwrite.Token` (the fields `Type` and `Bytes`; `Type` is spelled
`ttype` because `Type` is reserved in Lean). -/
structure Token where
  ttype : TokenType
  bytes : String
  deriving DecidableEq, Repr

/-- The default token used to model Go slice indexing `tokens[i]`: every
index read in the code is guarded by a length check, so the default is
never actually produced. -/
def dfltToken : Token := ⟨TokenType.TokenOther, ""⟩

/-- The first loop of `trimNewlines` in `main.go`: the resulting value of
`start`, i.e. the index of the first token whose type is not
`TokenNewline` (or the length, when every token is a newline). -/
def leadingNewlines : List Token → Nat
  | [] => 0
  | tok :: rest =>
    if tok.ttype = TokenType.TokenNewline then leadingNewlines rest + 1 else 0

/-- Embedding of `trimNewlines` from `main.go`.  It computes `start` (index of the
first non-newline) and `end` (one past the index of the last
non-newline) and returns the Go slice `tokens[start:end]`.  A Go slice
expression panics when `start > end`, which we model as `none`. -/
def trimNewlines (tokens : List Token) : Option (List Token) :=
  if tokens.length = 0 then
    some []
  else
    let s := leadingNewlines tokens
    let e := tokens.length - leadingNewlines tokens.reverse
    if s ≤ e then some ((tokens.drop s).take (e - s)) else none

/-- The token-classifier test used in the interior scan of
`cleanValueExpr`: is this token a template interpolation delimiter
(`TokenTemplateInterp` or `TokenTemplateSeqEnd`)? -/
def isInterpDelim (tok : Token) : Bool :=
  decide (tok.ttype = TokenType.TokenTemplateInterp) ||
    decide (tok.ttype = TokenType.TokenTemplateSeqEnd)

/-- The interior scan loop of `cleanValueExpr` in `main.go`: walk the
interior tokens keeping the running `quotes` counter; return `true` when
the loop hits its early `return tokens` (a template delimiter found while
`quotes` is not positive), `false` when the loop completes. -/
def scanRejects : List Token → Int → Bool
  | [], _ => false
  | tok :: rest, quotes =>
    if tok.ttype = TokenType.TokenOQuote then
      scanRejects rest (quotes + 1)
    else if tok.ttype = TokenType.TokenCQuote then
      scanRejects rest (quotes - 1)
    else if quotes > 0 then
      scanRejects rest quotes
    else if isInterpDelim tok then
      true
    else
      scanRejects rest quotes

/-- The interior slice `tokens[2 : len(tokens)-2]` taken by
`cleanValueExpr`. -/
def interiorTokens (tokens : List Token) : List Token :=
  (tokens.drop 2).take (tokens.length - 4)

/-- Embedding of `cleanValueExpr` from `main.go`.  `none` models the panic that
`trimNewlines` raises on an all-newline interior. -/
def cleanValueExpr (tokens : List Token) : Option (List Token) :=
  if tokens.length < 5 then
    some tokens
  else
    let oQuote := tokens.getD 0 dfltToken
    let oBrace := tokens.getD 1 dfltToken
    let cBrace := tokens.getD (tokens.length - 2) dfltToken
    let cQuote := tokens.getD (tokens.length - 1) dfltToken
    if oQuote.ttype ≠ TokenType.TokenOQuote ∨
        oBrace.ttype ≠ TokenType.TokenTemplateInterp ∨
        cBrace.ttype ≠ TokenType.TokenTemplateSeqEnd ∨
        cQuote.ttype ≠ TokenType.TokenCQuote then
      some tokens
    else
      let inside := interiorTokens tokens
      if scanRejects inside 0 then
        some tokens
      else
        trimNewlines inside

/-- Embedding of `cleanTypeExpr` from `main.go`: exactly three tokens shaped
open-quote / quoted-literal / close-quote, with the literal text switched
over `"string"`, `"list"` and `"map"`; anything else is returned
unchanged. -/
def cleanTypeExpr (tokens : List Token) : List Token :=
  match tokens with
  | [oQuote, strTok, cQuote] =>
    if oQuote.ttype ≠ TokenType.TokenOQuote ∨
        strTok.ttype ≠ TokenType.TokenQuotedLit ∨
        cQuote.ttype ≠ TokenType.TokenCQuote then
      tokens
    else if strTok.bytes = "string" then
      [⟨TokenType.TokenIdent, "string"⟩]
    else if strTok.bytes = "list" then
      [⟨TokenType.TokenIdent, "list"⟩, ⟨TokenType.TokenOParen, "("⟩,
        ⟨TokenType.TokenIdent, "string"⟩, ⟨TokenType.TokenCParen, ")"⟩]
    else if strTok.bytes = "map" then
      [⟨TokenType.TokenIdent, "map"⟩, ⟨TokenType.TokenOParen, "("⟩,
        ⟨TokenType.TokenIdent, "string"⟩, ⟨TokenType.TokenCParen, ")"⟩]
    else
      tokens
  | _ => tokens

/-- The guard shape of `cleanValueExpr` (its two early `return tokens`
tests combined): length at least 5 and the four delimiter kinds in
place. -/
def valueGuard (tokens : List Token) : Bool :=
  decide (5 ≤ tokens.length) &&
    decide ((tokens.getD 0 dfltToken).ttype = TokenType.TokenOQuote) &&
    decide ((tokens.getD 1 dfltToken).ttype = TokenType.TokenTemplateInterp) &&
    decide ((tokens.getD (tokens.length - 2) dfltToken).ttype = TokenType.TokenTemplateSeqEnd) &&
    decide ((tokens.getD (tokens.length - 1) dfltToken).ttype = TokenType.TokenCQuote)

/-- The guard shape of `cleanTypeExpr`: exactly three tokens, shaped
open-quote / quoted-literal / close-quote. -/
def typeGuard (tokens : List Token) : Bool :=
  decide (tokens.length = 3) &&
    decide ((tokens.getD 0 dfltToken).ttype = TokenType.TokenOQuote) &&
    decide ((tokens.getD 1 dfltToken).ttype = TokenType.TokenQuotedLit) &&
    decide ((tokens.getD 2 dfltToken).ttype = TokenType.TokenCQuote)

/-- The structural body of a parsed document, as the walker sees it (the
`hclwrite.Body` interface used by `cleanBody`): a list of attributes
(name and expression token sequence, in traversal order) and a list of
child blocks (block type name and nested body). -/
inductive Body where
  | mk : List (String × List Token) → List (String × Body) → Body

/-- Default block used for indexed access in theorem statements. -/
def dfltBlock : String × Body := ("", Body.mk [] [])

/-- The per-attribute dispatch inside the loop of `cleanBody` in
`main.go`: `if len(inBlocks) == 1 && inBlocks[0] == "variable" && name ==
"type"` route to `cleanTypeExpr`, otherwise to `cleanValueExpr`. -/
def cleanAttr (inBlocks : List String) (name : String) (toks : List Token) :
    Option (List Token) :=
  if inBlocks.length = 1 ∧ inBlocks.getD 0 "" = "variable" ∧ name = "type" then
    some (cleanTypeExpr toks)
  else
    cleanValueExpr toks

/-- The attribute loop of `cleanBody`: rewrite the expression tokens
of each attribute in order (`none` when a rewrite panics). -/
def cleanAttrs (inBlocks : List String) :
    List (String × List Token) → Option (List (String × List Token))
  | [] => some []
  | (name, toks) :: rest =>
    match cleanAttr inBlocks name toks, cleanAttrs inBlocks rest with
    | some toks2, some rest2 => some ((name, toks2) :: rest2)
    | _, _ => none

mutual

/-- Embedding of `cleanBody` from `main.go`: rewrite the expression of
every attribute via the dispatch above, then recurse into each child
block with the type name of that block appended to `inBlocks`. -/
def cleanBody : Body → List String → Option Body
  | Body.mk attrs blocks, inBlocks =>
    match cleanAttrs inBlocks attrs, cleanBlocks blocks inBlocks with
    | some attrs2, some blocks2 => some (Body.mk attrs2 blocks2)
    | _, _ => none
termination_by b _ => sizeOf b

/-- The block loop of `cleanBody`: `inBlocks := append(inBlocks,
block.Type()); cleanBody(block.Body(), inBlocks)` for each child in
order. -/
def cleanBlocks : List (String × Body) → List String → Option (List (String × Body))
  | [], _ => some []
  | (ty, b) :: rest, inBlocks =>
    match cleanBody b (inBlocks ++ [ty]), cleanBlocks rest inBlocks with
    | some b2, some rest2 => some ((ty, b2) :: rest2)
    | _, _ => none
termination_by l _ => sizeOf l

end

/-- Embedding of `cleanFile` from `main.go`: clean the top-level body with an empty
chain of enclosing blocks (`nil`). -/
def cleanFile (body : Body) : Option Body :=
  cleanBody body []


/-! ### Basic facts about the trim utility -/

theorem leadingNewlines_le_length (l : List Token) : leadingNewlines l ≤ l.length := by
  induction l with
  | nil => simp [leadingNewlines]
  | cons tok rest ih =>
    by_cases h : tok.ttype = TokenType.TokenNewline
    · simp only [leadingNewlines, if_pos h, List.length_cons]
      omega
    · simp [leadingNewlines, h]

theorem leadingNewlines_all (l : List Token)
    (h : ∀ x ∈ l, x.ttype = TokenType.TokenNewline) : leadingNewlines l = l.length := by
  induction l with
  | nil => rfl
  | cons tok rest ih =>
    have h0 : tok.ttype = TokenType.TokenNewline := h tok (by simp)
    have hrest := ih (fun x hx => h x (by simp [hx]))
    simp [leadingNewlines, h0, hrest]

theorem mem_take_leadingNewlines (l : List Token) :
    ∀ x ∈ l.take (leadingNewlines l), x.ttype = TokenType.TokenNewline := by
  induction l with
  | nil => simp
  | cons tok rest ih =>
    by_cases h : tok.ttype = TokenType.TokenNewline
    · simp only [leadingNewlines, if_pos h, List.take_succ_cons]
      intro x hx
      rcases List.mem_cons.mp hx with rfl | hx2
      · exact h
      · exact ih x hx2
    · simp [leadingNewlines, h]

theorem mem_drop_trailingNewlines (l : List Token) :
    ∀ x ∈ l.drop (l.length - leadingNewlines l.reverse),
      x.ttype = TokenType.TokenNewline := by
  intro x hx
  have heq : l.drop (l.length - leadingNewlines l.reverse) =
      (l.reverse.take (leadingNewlines l.reverse)).reverse :=
    List.rtake_eq_reverse_take_reverse l (leadingNewlines l.reverse)
  rw [heq] at hx
  exact mem_take_leadingNewlines l.reverse x (List.mem_reverse.mp hx)

theorem trimNewlines_le_length (l r : List Token) (h : trimNewlines l = some r) :
    r.length ≤ l.length := by
  simp only [trimNewlines] at h
  split_ifs at h with h0 h1
  · obtain rfl := (Option.some.inj h).symm
    simp
  · obtain rfl := (Option.some.inj h).symm
    simp only [List.length_take, List.length_drop]
    omega

/-! ### Guard shapes -/

theorem valueGuard_iff (t : List Token) : valueGuard t = true ↔
    5 ≤ t.length ∧ (t.getD 0 dfltToken).ttype = TokenType.TokenOQuote ∧
      (t.getD 1 dfltToken).ttype = TokenType.TokenTemplateInterp ∧
      (t.getD (t.length - 2) dfltToken).ttype = TokenType.TokenTemplateSeqEnd ∧
      (t.getD (t.length - 1) dfltToken).ttype = TokenType.TokenCQuote := by
  simp [valueGuard, Bool.and_eq_true, decide_eq_true_eq, and_assoc]

theorem typeGuard_iff (t : List Token) : typeGuard t = true ↔
    t.length = 3 ∧ (t.getD 0 dfltToken).ttype = TokenType.TokenOQuote ∧
      (t.getD 1 dfltToken).ttype = TokenType.TokenQuotedLit ∧
      (t.getD 2 dfltToken).ttype = TokenType.TokenCQuote := by
  simp [typeGuard, Bool.and_eq_true, decide_eq_true_eq, and_assoc]

theorem cleanValueExpr_not_guard (t : List Token) (h : valueGuard t = false) :
    cleanValueExpr t = some t := by
  by_cases h5 : t.length < 5
  · simp [cleanValueExpr, h5]
  · have hg : ¬ (5 ≤ t.length ∧ (t.getD 0 dfltToken).ttype = TokenType.TokenOQuote ∧
        (t.getD 1 dfltToken).ttype = TokenType.TokenTemplateInterp ∧
        (t.getD (t.length - 2) dfltToken).ttype = TokenType.TokenTemplateSeqEnd ∧
        (t.getD (t.length - 1) dfltToken).ttype = TokenType.TokenCQuote) := by
      intro hc
      rw [← valueGuard_iff] at hc
      rw [h] at hc
      exact Bool.false_ne_true hc
    have hcond : (t.getD 0 dfltToken).ttype ≠ TokenType.TokenOQuote ∨
        (t.getD 1 dfltToken).ttype ≠ TokenType.TokenTemplateInterp ∨
        (t.getD (t.length - 2) dfltToken).ttype ≠ TokenType.TokenTemplateSeqEnd ∨
        (t.getD (t.length - 1) dfltToken).ttype ≠ TokenType.TokenCQuote := by
      by_contra hno
      push_neg at hno
      exact hg ⟨by omega, hno.1, hno.2.1, hno.2.2.1, hno.2.2.2⟩
    simp only [cleanValueExpr, if_neg h5]
    rw [if_pos hcond]

theorem cleanTypeExpr_not_guard (t : List Token) (h : typeGuard t = false) :
    cleanTypeExpr t = t := by
  rcases t with _ | ⟨a, _ | ⟨b, _ | ⟨c, _ | ⟨d, rest⟩⟩⟩⟩
  · rfl
  · rfl
  · rfl
  · have hg : ¬ (a.ttype = TokenType.TokenOQuote ∧ b.ttype = TokenType.TokenQuotedLit ∧
        c.ttype = TokenType.TokenCQuote) := by
      intro ⟨h1, h2, h3⟩
      simp [typeGuard, h1, h2, h3] at h
    have hcond : a.ttype ≠ TokenType.TokenOQuote ∨ b.ttype ≠ TokenType.TokenQuotedLit ∨
        c.ttype ≠ TokenType.TokenCQuote := by tauto
    simp only [cleanTypeExpr]
    rw [if_pos hcond]
  · rfl

theorem cleanValueExpr_cases (t r : List Token) (h : cleanValueExpr t = some r) :
    r = t ∨ (5 ≤ t.length ∧ scanRejects (interiorTokens t) 0 = false ∧
      trimNewlines (interiorTokens t) = some r) := by
  simp only [cleanValueExpr] at h
  split_ifs at h with h1 h2 h3
  · exact Or.inl (Option.some.inj h).symm
  · exact Or.inl (Option.some.inj h).symm
  · exact Or.inl (Option.some.inj h).symm
  · exact Or.inr ⟨by omega, by simpa using h3, h⟩

/-! ### Length behaviour of the type simplifier -/

theorem cleanTypeExpr_length (t : List Token) : (cleanTypeExpr t).length ≤ t.length + 1 := by
  rcases t with _ | ⟨a, _ | ⟨b, _ | ⟨c, _ | ⟨d, rest⟩⟩⟩⟩
  · simp [cleanTypeExpr]
  · simp [cleanTypeExpr]
  · simp [cleanTypeExpr]
  · simp only [cleanTypeExpr]
    split_ifs <;> simp
  · simp [cleanTypeExpr]

/-! ### Claim theorems C1, C2, C3, C5, C6 -/

/-- Claim C1 (code bug): contrary to the specification, `trimNewlines` is
not total: on every nonempty sequence consisting only of newline-kind
tokens the loops of the Go function leave `start = len(tokens)` and
`end = 0`, so the returned slice expression `tokens[start:end]` panics
with a slice-bounds-out-of-range error (modelled here as `none`) instead
of returning an empty sequence. -/
theorem trimNewlines_all_newline_panics (t : List Token) (hne : t ≠ [])
    (hall : ∀ x ∈ t, x.ttype = TokenType.TokenNewline) : trimNewlines t = none := by
  have hlen : t.length ≠ 0 := by
    simpa using hne
  have h1 : leadingNewlines t = t.length := leadingNewlines_all t hall
  have h2 : leadingNewlines t.reverse = t.length := by
    rw [leadingNewlines_all t.reverse (fun x hx => hall x (List.mem_reverse.mp hx))]
    simp
  simp only [trimNewlines, h1, h2]
  rw [if_neg hlen, if_neg (by omega)]

/-- Witness for C1: the single-newline sequence (the interior of
`"${\n}"`) makes `trimNewlines` panic. -/
theorem trimNewlines_all_newline_panics_witness :
    trimNewlines [⟨TokenType.TokenNewline, "\n"⟩] = none :=
  trimNewlines_all_newline_panics [⟨TokenType.TokenNewline, "\n"⟩] (by decide) (by decide)

/-- Counterexample for C2: the claim "the returned token sequence has
length equal to or less than the length of the input sequence" is false
for the type simplifier: the three tokens of `"list"` are rewritten to
the four tokens of `list(string)`. -/
theorem cleanTypeExpr_output_longer :
    ¬ ((cleanTypeExpr [⟨TokenType.TokenOQuote, "\""⟩, ⟨TokenType.TokenQuotedLit, "list"⟩,
          ⟨TokenType.TokenCQuote, "\""⟩]).length ≤
        ([⟨TokenType.TokenOQuote, "\""⟩, ⟨TokenType.TokenQuotedLit, "list"⟩,
          ⟨TokenType.TokenCQuote, "\""⟩] : List Token).length) := by
  decide

/-- Claim C2 (amended): the value simplifier never returns a longer
sequence than its input; the type simplifier can grow its input by one
token (three tokens of a legacy `"list"`/`"map"` string become the four
tokens of `list(string)`/`map(string)`), and never by more. -/
theorem simplifier_length_bound :
    (∀ t r, cleanValueExpr t = some r → r.length ≤ t.length) ∧
      (∀ t, (cleanTypeExpr t).length ≤ t.length + 1) := by
  constructor
  · intro t r h
    rcases cleanValueExpr_cases t r h with rfl | ⟨h5, _, htrim⟩
    · exact le_refl _
    · have h1 := trimNewlines_le_length _ _ htrim
      have h2 : (interiorTokens t).length ≤ t.length := by
        simp only [interiorTokens, List.length_take, List.length_drop]
        omega
      omega
  · exact cleanTypeExpr_length

/-- Witness for C2: the amended bound applied at concrete inputs. -/
theorem simplifier_length_bound_witness :
    ([⟨TokenType.TokenIdent, "foo"⟩] : List Token).length ≤
      ([⟨TokenType.TokenIdent, "foo"⟩] : List Token).length :=
  simplifier_length_bound.1 [⟨TokenType.TokenIdent, "foo"⟩]
    [⟨TokenType.TokenIdent, "foo"⟩] (by decide)

/-- Counterexample for C3: the value simplifier is not idempotent.  The
tokens of `"${"${foo}"}"` pass the guard and the interior scan (the inner
template delimiters all sit inside the nested quotes), so one application
unwraps them to the tokens of `"${foo}"`, which a second application
unwraps further to `foo`. -/
theorem cleanValueExpr_not_idempotent :
    (cleanValueExpr [⟨TokenType.TokenOQuote, "\""⟩, ⟨TokenType.TokenTemplateInterp, "$\x7b"⟩,
        ⟨TokenType.TokenOQuote, "\""⟩, ⟨TokenType.TokenTemplateInterp, "$\x7b"⟩,
        ⟨TokenType.TokenIdent, "foo"⟩, ⟨TokenType.TokenTemplateSeqEnd, "\x7d"⟩,
        ⟨TokenType.TokenCQuote, "\""⟩, ⟨TokenType.TokenTemplateSeqEnd, "\x7d"⟩,
        ⟨TokenType.TokenCQuote, "\""⟩]).bind cleanValueExpr ≠
      cleanValueExpr [⟨TokenType.TokenOQuote, "\""⟩, ⟨TokenType.TokenTemplateInterp, "$\x7b"⟩,
        ⟨TokenType.TokenOQuote, "\""⟩, ⟨TokenType.TokenTemplateInterp, "$\x7b"⟩,
        ⟨TokenType.TokenIdent, "foo"⟩, ⟨TokenType.TokenTemplateSeqEnd, "\x7d"⟩,
        ⟨TokenType.TokenCQuote, "\""⟩, ⟨TokenType.TokenTemplateSeqEnd, "\x7d"⟩,
        ⟨TokenType.TokenCQuote, "\""⟩] := by
  decide

/-- Claim C3 (amended): the type simplifier is idempotent on every token
sequence, and the value simplifier is idempotent on every input it
returns unchanged; on inputs it rewrites, a second application may
simplify further (see the counterexample). -/
theorem simplifier_idempotence_amended :
    (∀ t, cleanTypeExpr (cleanTypeExpr t) = cleanTypeExpr t) ∧
      (∀ t, cleanValueExpr t = some t →
        (cleanValueExpr t).bind cleanValueExpr = cleanValueExpr t) := by
  constructor
  · intro t
    rcases t with _ | ⟨a, _ | ⟨b, _ | ⟨c, _ | ⟨d, rest⟩⟩⟩⟩
    · rfl
    · rfl
    · rfl
    · by_cases hk : a.ttype ≠ TokenType.TokenOQuote ∨ b.ttype ≠ TokenType.TokenQuotedLit ∨
          c.ttype ≠ TokenType.TokenCQuote
      · have hid : cleanTypeExpr [a, b, c] = [a, b, c] := by
          simp only [cleanTypeExpr]; rw [if_pos hk]
        rw [hid]
        exact hid
      · push_neg at hk
        obtain ⟨ha, hb, hc⟩ := hk
        by_cases hs1 : b.bytes = "string"
        · simp [cleanTypeExpr, ha, hb, hc, hs1]
        · by_cases hs2 : b.bytes = "list"
          · simp [cleanTypeExpr, ha, hb, hc, hs1, hs2]
          · by_cases hs3 : b.bytes = "map"
            · simp [cleanTypeExpr, ha, hb, hc, hs1, hs2, hs3]
            · simp [cleanTypeExpr, ha, hb, hc, hs1, hs2, hs3]
    · rfl
  · intro t h
    rw [h]
    simpa using h

/-- Witness for C3: the amended statement applied at concrete inputs. -/
theorem simplifier_idempotence_amended_witness :
    cleanTypeExpr (cleanTypeExpr [⟨TokenType.TokenOQuote, "\""⟩,
        ⟨TokenType.TokenQuotedLit, "map"⟩, ⟨TokenType.TokenCQuote, "\""⟩]) =
      cleanTypeExpr [⟨TokenType.TokenOQuote, "\""⟩, ⟨TokenType.TokenQuotedLit, "map"⟩,
        ⟨TokenType.TokenCQuote, "\""⟩] ∧
    (cleanValueExpr [⟨TokenType.TokenIdent, "foo"⟩]).bind cleanValueExpr =
      cleanValueExpr [⟨TokenType.TokenIdent, "foo"⟩] :=
  ⟨simplifier_idempotence_amended.1 _, simplifier_idempotence_amended.2 _ (by decide)⟩

/-- Claim C5: a token sequence that does not match a simplifier guard
shape (for the value simplifier: length at least 5 with the four
delimiter kinds in place; for the type simplifier: exactly open-quote,
quoted-literal, close-quote) is returned unchanged by that simplifier. -/
theorem simplifier_guard_mismatch_identity :
    (∀ t, valueGuard t = false → cleanValueExpr t = some t) ∧
      (∀ t, typeGuard t = false → cleanTypeExpr t = t) :=
  ⟨cleanValueExpr_not_guard, cleanTypeExpr_not_guard⟩

/-- Witness for C5: both identities applied at a concrete non-matching
input. -/
theorem simplifier_guard_mismatch_identity_witness :
    cleanValueExpr [⟨TokenType.TokenIdent, "x"⟩] = some [⟨TokenType.TokenIdent, "x"⟩] ∧
      cleanTypeExpr [⟨TokenType.TokenIdent, "x"⟩] = [⟨TokenType.TokenIdent, "x"⟩] :=
  ⟨simplifier_guard_mismatch_identity.1 _ (by decide),
    simplifier_guard_mismatch_identity.2 _ (by decide)⟩

/-- Claim C6: for a length-3 sequence open-quote / quoted-literal /
close-quote, `cleanTypeExpr` dispatches on the literal text: `"string"`
becomes the identifier `string`, `"list"` becomes `list(string)`, `"map"`
becomes `map(string)`, and any other literal content (such as `"number"`)
leaves the sequence unchanged. -/
theorem cleanTypeExpr_mapping_table (b1 b2 s : String) :
    cleanTypeExpr [⟨TokenType.TokenOQuote, b1⟩, ⟨TokenType.TokenQuotedLit, s⟩,
        ⟨TokenType.TokenCQuote, b2⟩] =
      (if s = "string" then [⟨TokenType.TokenIdent, "string"⟩]
       else if s = "list" then
         [⟨TokenType.TokenIdent, "list"⟩, ⟨TokenType.TokenOParen, "("⟩,
           ⟨TokenType.TokenIdent, "string"⟩, ⟨TokenType.TokenCParen, ")"⟩]
       else if s = "map" then
         [⟨TokenType.TokenIdent, "map"⟩, ⟨TokenType.TokenOParen, "("⟩,
           ⟨TokenType.TokenIdent, "string"⟩, ⟨TokenType.TokenCParen, ")"⟩]
       else [⟨TokenType.TokenOQuote, b1⟩, ⟨TokenType.TokenQuotedLit, s⟩,
         ⟨TokenType.TokenCQuote, b2⟩]) := by
  simp [cleanTypeExpr]

/-! ### The quote-depth reading of the interior scan (claim C4) -/

/-- One step of the quote-depth counter of the interior scan: open-quote
increments, close-quote decrements, every other token leaves it
unchanged. -/
def quoteStep (q : Int) (tok : Token) : Int :=
  if tok.ttype = TokenType.TokenOQuote then q + 1
  else if tok.ttype = TokenType.TokenCQuote then q - 1
  else q

/-- The quote-depth counter accumulated over a token sequence, as the
specification describes the scan (glossary: "Quote depth"). -/
def quoteDepth (tokens : List Token) : Int :=
  tokens.foldl quoteStep 0

theorem quoteStep_zero_add (q : Int) (tok : Token) :
    quoteStep q tok = q + quoteStep 0 tok := by
  simp only [quoteStep]
  split_ifs <;> omega

theorem foldl_quoteStep_eq (l : List Token) : ∀ q : Int,
    l.foldl quoteStep q = q + quoteDepth l := by
  induction l with
  | nil => intro q; simp [quoteDepth]
  | cons tok rest ih =>
    intro q
    simp only [quoteDepth, List.foldl_cons]
    rw [ih (quoteStep q tok), ih (quoteStep 0 tok), quoteStep_zero_add]
    omega

theorem quoteDepth_cons (tok : Token) (l : List Token) :
    quoteDepth (tok :: l) = quoteStep 0 tok + quoteDepth l := by
  simp only [quoteDepth, List.foldl_cons]
  rw [foldl_quoteStep_eq]
  rfl

theorem quoteStep_zero_of_oQuote (tok : Token) (h : tok.ttype = TokenType.TokenOQuote) :
    quoteStep 0 tok = 1 := by
  simp [quoteStep, h]

theorem quoteStep_zero_of_cQuote (tok : Token) (h : tok.ttype = TokenType.TokenCQuote) :
    quoteStep 0 tok = -1 := by
  have hne : tok.ttype ≠ TokenType.TokenOQuote := by rw [h]; intro hc; cases hc
  simp [quoteStep, hne, h]

theorem quoteStep_zero_of_other (tok : Token) (h1 : tok.ttype ≠ TokenType.TokenOQuote)
    (h2 : tok.ttype ≠ TokenType.TokenCQuote) : quoteStep 0 tok = 0 := by
  simp [quoteStep, h1, h2]

/-- The interior scan returns its early rejection exactly when some
interior token is a template delimiter with the running quote-depth
counter at that token not positive. -/
theorem scanRejects_iff (l : List Token) : ∀ q : Int,
    scanRejects l q = true ↔
      ∃ i, i < l.length ∧ isInterpDelim (l.getD i dfltToken) = true ∧
        q + quoteDepth (l.take i) ≤ 0 := by
  induction l with
  | nil => intro q; simp [scanRejects]
  | cons tok rest ih =>
    intro q
    by_cases h1 : tok.ttype = TokenType.TokenOQuote
    · have hstep : quoteStep 0 tok = 1 := quoteStep_zero_of_oQuote tok h1
      have hdelim : isInterpDelim tok = false := by
        simp [isInterpDelim, h1]
      simp only [scanRejects, if_pos h1]
      rw [ih (q + 1)]
      constructor
      · rintro ⟨i, hi, hd, hq⟩
        refine ⟨i + 1, by simp; omega, by simpa using hd, ?_⟩
        rw [List.take_succ_cons, quoteDepth_cons, hstep]
        omega
      · rintro ⟨i, hi, hd, hq⟩
        cases i with
        | zero => rw [List.getD_cons_zero] at hd; rw [hdelim] at hd; cases hd
        | succ j =>
          rw [List.getD_cons_succ] at hd
          rw [List.take_succ_cons, quoteDepth_cons, hstep] at hq
          exact ⟨j, by simp at hi; omega, hd, by omega⟩
    · by_cases h2 : tok.ttype = TokenType.TokenCQuote
      · have hstep : quoteStep 0 tok = -1 := quoteStep_zero_of_cQuote tok h2
        have hdelim : isInterpDelim tok = false := by
          simp [isInterpDelim, h2]
        simp only [scanRejects, if_neg h1, if_pos h2]
        rw [ih (q - 1)]
        constructor
        · rintro ⟨i, hi, hd, hq⟩
          refine ⟨i + 1, by simp; omega, by simpa using hd, ?_⟩
          rw [List.take_succ_cons, quoteDepth_cons, hstep]
          omega
        · rintro ⟨i, hi, hd, hq⟩
          cases i with
          | zero => rw [List.getD_cons_zero] at hd; rw [hdelim] at hd; cases hd
          | succ j =>
            rw [List.getD_cons_succ] at hd
            rw [List.take_succ_cons, quoteDepth_cons, hstep] at hq
            exact ⟨j, by simp at hi; omega, hd, by omega⟩
      · have hstep : quoteStep 0 tok = 0 := quoteStep_zero_of_other tok h1 h2
        by_cases h3 : q > 0
        · simp only [scanRejects, if_neg h1, if_neg h2, if_pos h3]
          rw [ih q]
          constructor
          · rintro ⟨i, hi, hd, hq⟩
            refine ⟨i + 1, by simp; omega, by simpa using hd, ?_⟩
            rw [List.take_succ_cons, quoteDepth_cons, hstep]
            omega
          · rintro ⟨i, hi, hd, hq⟩
            cases i with
            | zero =>
              simp only [List.take_zero, quoteDepth, List.foldl_nil] at hq
              omega
            | succ j =>
              rw [List.getD_cons_succ] at hd
              rw [List.take_succ_cons, quoteDepth_cons, hstep] at hq
              exact ⟨j, by simp at hi; omega, hd, by omega⟩
        · by_cases h4 : isInterpDelim tok = true
          · simp only [scanRejects, if_neg h1, if_neg h2, if_neg h3, if_pos h4]
            constructor
            · intro _
              refine ⟨0, by simp, by simpa using h4, ?_⟩
              simp only [List.take_zero, quoteDepth, List.foldl_nil]
              omega
            · intro _; trivial
          · simp only [scanRejects, if_neg h1, if_neg h2, if_neg h3, if_neg h4]
            rw [ih q]
            constructor
            · rintro ⟨i, hi, hd, hq⟩
              refine ⟨i + 1, by simp; omega, by simpa using hd, ?_⟩
              rw [List.take_succ_cons, quoteDepth_cons, hstep]
              omega
            · rintro ⟨i, hi, hd, hq⟩
              cases i with
              | zero =>
                rw [List.getD_cons_zero] at hd
                exact absurd hd h4
              | succ j =>
                rw [List.getD_cons_succ] at hd
                rw [List.take_succ_cons, quoteDepth_cons, hstep] at hq
                exact ⟨j, by simp at hi; omega, hd, by omega⟩

/-- Claim C4: on every input matching the guard of `cleanValueExpr`, the
result is the original sequence whenever the interior scan meets a
template delimiter with the quote-depth counter not positive (delimiters
met at positive depth are ignored), and otherwise the interior tokens
passed through the trim utility; for example the tokens of
`"${foo("${bar}")}"` become the tokens of `foo("${bar}")` while the
tokens of `"${foo}${bar}"` are returned unchanged. -/
theorem cleanValueExpr_interior_scan :
    (∀ t, valueGuard t = true →
      cleanValueExpr t =
        if scanRejects (interiorTokens t) 0 = true then some t
        else trimNewlines (interiorTokens t)) ∧
    (∀ l, scanRejects l 0 = true ↔
      ∃ i, i < l.length ∧ isInterpDelim (l.getD i dfltToken) = true ∧
        quoteDepth (l.take i) ≤ 0) ∧
    cleanValueExpr [⟨TokenType.TokenOQuote, "\""⟩, ⟨TokenType.TokenTemplateInterp, "$\x7b"⟩,
        ⟨TokenType.TokenIdent, "foo"⟩, ⟨TokenType.TokenOParen, "("⟩,
        ⟨TokenType.TokenOQuote, "\""⟩, ⟨TokenType.TokenTemplateInterp, "$\x7b"⟩,
        ⟨TokenType.TokenIdent, "bar"⟩, ⟨TokenType.TokenTemplateSeqEnd, "\x7d"⟩,
        ⟨TokenType.TokenCQuote, "\""⟩, ⟨TokenType.TokenCParen, ")"⟩,
        ⟨TokenType.TokenTemplateSeqEnd, "\x7d"⟩, ⟨TokenType.TokenCQuote, "\""⟩] =
      some [⟨TokenType.TokenIdent, "foo"⟩, ⟨TokenType.TokenOParen, "("⟩,
        ⟨TokenType.TokenOQuote, "\""⟩, ⟨TokenType.TokenTemplateInterp, "$\x7b"⟩,
        ⟨TokenType.TokenIdent, "bar"⟩, ⟨TokenType.TokenTemplateSeqEnd, "\x7d"⟩,
        ⟨TokenType.TokenCQuote, "\""⟩, ⟨TokenType.TokenCParen, ")"⟩] ∧
    cleanValueExpr [⟨TokenType.TokenOQuote, "\""⟩, ⟨TokenType.TokenTemplateInterp, "$\x7b"⟩,
        ⟨TokenType.TokenIdent, "foo"⟩, ⟨TokenType.TokenTemplateSeqEnd, "\x7d"⟩,
        ⟨TokenType.TokenTemplateInterp, "$\x7b"⟩, ⟨TokenType.TokenIdent, "bar"⟩,
        ⟨TokenType.TokenTemplateSeqEnd, "\x7d"⟩, ⟨TokenType.TokenCQuote, "\""⟩] =
      some [⟨TokenType.TokenOQuote, "\""⟩, ⟨TokenType.TokenTemplateInterp, "$\x7b"⟩,
        ⟨TokenType.TokenIdent, "foo"⟩, ⟨TokenType.TokenTemplateSeqEnd, "\x7d"⟩,
        ⟨TokenType.TokenTemplateInterp, "$\x7b"⟩, ⟨TokenType.TokenIdent, "bar"⟩,
        ⟨TokenType.TokenTemplateSeqEnd, "\x7d"⟩, ⟨TokenType.TokenCQuote, "\""⟩] := by
  refine ⟨?_, ?_, by decide, by decide⟩
  · intro t h
    rw [valueGuard_iff] at h
    obtain ⟨h5, ha, hb, hc, hd⟩ := h
    simp only [cleanValueExpr, if_neg (by omega : ¬ t.length < 5)]
    rw [if_neg (by push_neg; exact ⟨ha, hb, hc, hd⟩)]
  · intro l
    simpa using scanRejects_iff l 0

/-- Witness for C4: the guarded branch equation applied at the concrete
tokens of `"${foo}"`. -/
theorem cleanValueExpr_interior_scan_witness :
    cleanValueExpr [⟨TokenType.TokenOQuote, "\""⟩, ⟨TokenType.TokenTemplateInterp, "$\x7b"⟩,
        ⟨TokenType.TokenIdent, "foo"⟩, ⟨TokenType.TokenTemplateSeqEnd, "\x7d"⟩,
        ⟨TokenType.TokenCQuote, "\""⟩] =
      if scanRejects (interiorTokens [⟨TokenType.TokenOQuote, "\""⟩,
          ⟨TokenType.TokenTemplateInterp, "$\x7b"⟩, ⟨TokenType.TokenIdent, "foo"⟩,
          ⟨TokenType.TokenTemplateSeqEnd, "\x7d"⟩, ⟨TokenType.TokenCQuote, "\""⟩]) 0 = true then
        some [⟨TokenType.TokenOQuote, "\""⟩, ⟨TokenType.TokenTemplateInterp, "$\x7b"⟩,
          ⟨TokenType.TokenIdent, "foo"⟩, ⟨TokenType.TokenTemplateSeqEnd, "\x7d"⟩,
          ⟨TokenType.TokenCQuote, "\""⟩]
      else trimNewlines (interiorTokens [⟨TokenType.TokenOQuote, "\""⟩,
          ⟨TokenType.TokenTemplateInterp, "$\x7b"⟩, ⟨TokenType.TokenIdent, "foo"⟩,
          ⟨TokenType.TokenTemplateSeqEnd, "\x7d"⟩, ⟨TokenType.TokenCQuote, "\""⟩]) :=
  cleanValueExpr_interior_scan.1 _ (by decide)

/-- Claim C7: the structural walker routes an attribute to the
type-constraint simplifier exactly when the chain of enclosing block
types is exactly `["variable"]` and the attribute name is `"type"`; in
every other case it routes to the value-expression simplifier. -/
theorem cleanAttr_dispatch (inBlocks : List String) (name : String) (toks : List Token) :
    cleanAttr inBlocks name toks =
      if inBlocks = ["variable"] ∧ name = "type" then some (cleanTypeExpr toks)
      else cleanValueExpr toks := by
  rcases inBlocks with _ | ⟨b, _ | ⟨b2, rest⟩⟩
  · simp [cleanAttr]
  · simp [cleanAttr]
  · simp [cleanAttr]

/-! ### The structural walker (claims C8 and C9) -/

theorem cleanAttr_unchanged (c : List String) (name : String) (toks : List Token)
    (hv : valueGuard toks = false) (ht : typeGuard toks = false) :
    cleanAttr c name toks = some toks := by
  unfold cleanAttr
  split_ifs with h
  · rw [cleanTypeExpr_not_guard toks ht]
  · exact cleanValueExpr_not_guard toks hv

theorem cleanAttrs_spec : ∀ (c : List String) (attrs attrs2 : List (String × List Token)),
    cleanAttrs c attrs = some attrs2 →
    attrs2.map Prod.fst = attrs.map Prod.fst ∧
      ∀ p ∈ attrs.zip attrs2, valueGuard p.1.2 = false → typeGuard p.1.2 = false →
        p.2.2 = p.1.2 := by
  intro c attrs
  induction attrs with
  | nil =>
    intro attrs2 h
    simp only [cleanAttrs] at h
    obtain rfl := (Option.some.inj h).symm
    simp
  | cons a rest ih =>
    intro attrs2 h
    obtain ⟨name, toks⟩ := a
    simp only [cleanAttrs] at h
    cases h1 : cleanAttr c name toks with
    | none => rw [h1] at h; simp at h
    | some toks2 =>
      cases h2 : cleanAttrs c rest with
      | none => rw [h1, h2] at h; simp at h
      | some rest2 =>
        rw [h1, h2] at h
        simp only [Option.some.injEq] at h
        obtain rfl := h.symm
        obtain ⟨ihm, ihz⟩ := ih rest2 h2
        refine ⟨by simp [ihm], ?_⟩
        intro p hp hv ht
        rcases List.mem_cons.mp hp with rfl | hp2
        · show toks2 = toks
          have hu := cleanAttr_unchanged c name toks hv ht
          rw [hu] at h1
          exact (Option.some.inj h1).symm
        · exact ihz p hp2 hv ht

theorem cleanBlocks_pointwise : ∀ (blocks : List (String × Body)) (c : List String)
    (out : List (String × Body)), cleanBlocks blocks c = some out →
    out.map Prod.fst = blocks.map Prod.fst ∧
      ∀ p ∈ blocks.zip out, cleanBody p.1.2 (c ++ [p.1.1]) = some p.2.2 := by
  intro blocks
  induction blocks with
  | nil =>
    intro c out h
    simp only [cleanBlocks] at h
    obtain rfl := (Option.some.inj h).symm
    simp
  | cons hd rest ih =>
    intro c out h
    obtain ⟨ty, b⟩ := hd
    simp only [cleanBlocks] at h
    cases h1 : cleanBody b (c ++ [ty]) with
    | none => rw [h1] at h; simp at h
    | some b2 =>
      cases h2 : cleanBlocks rest c with
      | none => rw [h1, h2] at h; simp at h
      | some rest2 =>
        rw [h1, h2] at h
        simp only [Option.some.injEq] at h
        obtain rfl := h.symm
        obtain ⟨ihm, ihz⟩ := ih c rest2 h2
        refine ⟨by simp [ihm], ?_⟩
        intro p hp
        rcases List.mem_cons.mp hp with rfl | hp2
        · exact h1
        · exact ihz p hp2

/-- Claim C8: during the walk of a block list, the body of each child
block is cleaned with the parent context extended by exactly the
block-type name of that child; the extension made for one child is never seen by a
sibling, whose recursive call receives the same parent context with only
its own name appended. -/
theorem cleanBlocks_child_context :
    ∀ (blocks : List (String × Body)) (c : List String) (out : List (String × Body)),
      cleanBlocks blocks c = some out →
      out.length = blocks.length ∧
        ∀ i, i < blocks.length →
          (out.getD i dfltBlock).1 = (blocks.getD i dfltBlock).1 ∧
            cleanBody (blocks.getD i dfltBlock).2 (c ++ [(blocks.getD i dfltBlock).1]) =
              some (out.getD i dfltBlock).2 := by
  intro blocks
  induction blocks with
  | nil =>
    intro c out h
    simp only [cleanBlocks] at h
    obtain rfl := (Option.some.inj h).symm
    simp
  | cons hd rest ih =>
    intro c out h
    obtain ⟨ty, b⟩ := hd
    simp only [cleanBlocks] at h
    cases h1 : cleanBody b (c ++ [ty]) with
    | none => rw [h1] at h; simp at h
    | some b2 =>
      cases h2 : cleanBlocks rest c with
      | none => rw [h1, h2] at h; simp at h
      | some rest2 =>
        rw [h1, h2] at h
        simp only [Option.some.injEq] at h
        obtain rfl := h.symm
        obtain ⟨ihlen, ihrec⟩ := ih c rest2 h2
        refine ⟨by simp [ihlen], ?_⟩
        intro i hi
        cases i with
        | zero => exact ⟨rfl, h1⟩
        | succ j =>
          simp only [List.getD_cons_succ]
          exact ihrec j (by simp only [List.length_cons] at hi; omega)

/-- Witness for C8: the indexed statement applied to a concrete
one-block list. -/
theorem cleanBlocks_child_context_witness :
    "variable" = "variable" ∧
      cleanBody (Body.mk [] []) ["variable"] = some (Body.mk [] []) :=
  (cleanBlocks_child_context [("variable", Body.mk [] [])] []
    [("variable", Body.mk [] [])]
    (by simp [cleanBlocks, cleanBody, cleanAttrs])).2 0 (by decide)

/-- The frame relation of the structural walk: the cleaned body has the
same attribute names in the same order, attributes whose expressions
match neither simplifier guard keep their token sequences, the child
blocks keep their type names and order, and the same holds recursively in
every descendant body. -/
inductive CleanFrame : Body → Body → Prop where
  | mk : ∀ (attrs attrs2 : List (String × List Token)) (blocks blocks2 : List (String × Body)),
      attrs2.map Prod.fst = attrs.map Prod.fst →
      (∀ p ∈ attrs.zip attrs2, valueGuard p.1.2 = false → typeGuard p.1.2 = false →
        p.2.2 = p.1.2) →
      blocks2.map Prod.fst = blocks.map Prod.fst →
      (∀ p ∈ blocks.zip blocks2, CleanFrame p.1.2 p.2.2) →
      CleanFrame (Body.mk attrs blocks) (Body.mk attrs2 blocks2)

theorem cleanBody_frame_aux : ∀ (n : Nat) (body : Body) (c : List String) (out : Body),
    sizeOf body ≤ n → cleanBody body c = some out → CleanFrame body out := by
  intro n
  induction n with
  | zero =>
    intro body c out hsz h
    exfalso
    cases body with
    | mk attrs blocks => simp at hsz
  | succ n ih =>
    intro body c out hsz h
    cases body with
    | mk attrs blocks =>
      simp only [cleanBody] at h
      cases h1 : cleanAttrs c attrs with
      | none => rw [h1] at h; simp at h
      | some attrs2 =>
        cases h2 : cleanBlocks blocks c with
        | none => rw [h1, h2] at h; simp at h
        | some blocks2 =>
          rw [h1, h2] at h
          simp only [Option.some.injEq] at h
          obtain rfl := h.symm
          obtain ⟨ha1, ha2⟩ := cleanAttrs_spec c attrs attrs2 h1
          obtain ⟨hb1, hb2⟩ := cleanBlocks_pointwise blocks c blocks2 h2
          refine CleanFrame.mk attrs attrs2 blocks blocks2 ha1 ha2 hb1 ?_
          intro p hp
          obtain ⟨⟨ty, b⟩, ⟨ty2, b2⟩⟩ := p
          have hmem : (ty, b) ∈ blocks := (List.of_mem_zip hp).1
          have hsz2 : sizeOf b ≤ n := by
            have hlt := List.sizeOf_lt_of_mem hmem
            simp only [Prod.mk.sizeOf_spec] at hlt
            simp only [Body.mk.sizeOf_spec] at hsz
            omega
          exact ih b (c ++ [ty]) b2 hsz2 (hb2 ⟨(ty, b), (ty2, b2)⟩ hp)

/-- Claim C9: the structural walk only replaces attribute expression
token sequences.  Whenever `cleanBody` completes on a body, the result
has the same attribute names in the same order, the same block types in
the same order, the same nesting structure, and every attribute whose
expression matches neither simplifier guard keeps its token sequence
unchanged, at every depth. -/
theorem cleanBody_frame (body : Body) (c : List String) (out : Body)
    (h : cleanBody body c = some out) : CleanFrame body out :=
  cleanBody_frame_aux (sizeOf body) body c out (le_refl _) h

/-- Witness for C9: the frame relation obtained on a concrete one
attribute body. -/
theorem cleanBody_frame_witness :
    CleanFrame (Body.mk [("name", [⟨TokenType.TokenIdent, "foo"⟩])] [])
      (Body.mk [("name", [⟨TokenType.TokenIdent, "foo"⟩])] []) :=
  cleanBody_frame (Body.mk [("name", [⟨TokenType.TokenIdent, "foo"⟩])] []) []
    (Body.mk [("name", [⟨TokenType.TokenIdent, "foo"⟩])] [])
    (by simp [cleanBody, cleanBlocks, cleanAttrs, cleanAttr, cleanValueExpr])

/-! ### Claim C10: a changed result is the trimmed interior -/

/-- Claim C10: whenever `cleanValueExpr` returns a result different from
its input, that result is the interior slice (the tokens strictly between
position 2 and position length minus 2) with zero or more leading and
trailing newline-kind tokens removed, in the original order; in
particular the result is a contiguous infix of the input, so no new token
is constructed. -/
theorem cleanValueExpr_changed_within_interior :
    ∀ (t r : List Token), cleanValueExpr t = some r → r ≠ t →
      ∃ a b, (∀ x ∈ a, x.ttype = TokenType.TokenNewline) ∧
        (∀ x ∈ b, x.ttype = TokenType.TokenNewline) ∧
        interiorTokens t = a ++ r ++ b ∧ List.IsInfix r t := by
  intro t r h hne
  rcases cleanValueExpr_cases t r h with rfl | ⟨h5, _, htrim⟩
  · exact absurd rfl hne
  · have hIlen : (interiorTokens t).length = t.length - 4 := by
      simp only [interiorTokens, List.length_take, List.length_drop]
      omega
    simp only [trimNewlines] at htrim
    split_ifs at htrim with h0 hse
    · omega
    · obtain rfl := (Option.some.inj htrim).symm
      refine ⟨(interiorTokens t).take (leadingNewlines (interiorTokens t)),
        (interiorTokens t).drop ((interiorTokens t).length -
          leadingNewlines (interiorTokens t).reverse),
        mem_take_leadingNewlines (interiorTokens t),
        mem_drop_trailingNewlines (interiorTokens t), ?_, ?_⟩
      · have h2 : ((interiorTokens t).drop (leadingNewlines (interiorTokens t))).drop
            (((interiorTokens t).length - leadingNewlines (interiorTokens t).reverse) -
              leadingNewlines (interiorTokens t)) =
            (interiorTokens t).drop ((interiorTokens t).length -
              leadingNewlines (interiorTokens t).reverse) := by
          rw [List.drop_drop]
          congr 1
          omega
        rw [List.append_assoc, ← h2, List.take_append_drop, List.take_append_drop]
      · have hdecomp : interiorTokens t =
            (interiorTokens t).take (leadingNewlines (interiorTokens t)) ++
              ((interiorTokens t).drop (leadingNewlines (interiorTokens t))).take
                (((interiorTokens t).length - leadingNewlines (interiorTokens t).reverse) -
                  leadingNewlines (interiorTokens t)) ++
              (interiorTokens t).drop ((interiorTokens t).length -
                leadingNewlines (interiorTokens t).reverse) := by
          have h2 : ((interiorTokens t).drop (leadingNewlines (interiorTokens t))).drop
              (((interiorTokens t).length - leadingNewlines (interiorTokens t).reverse) -
                leadingNewlines (interiorTokens t)) =
              (interiorTokens t).drop ((interiorTokens t).length -
                leadingNewlines (interiorTokens t).reverse) := by
            rw [List.drop_drop]
            congr 1
            omega
          rw [List.append_assoc, ← h2, List.take_append_drop, List.take_append_drop]
        have hdrop2 : interiorTokens t ++ t.drop (t.length - 2) = t.drop 2 := by
          have h3 : (t.drop 2).drop (t.length - 4) = t.drop (t.length - 2) := by
            rw [List.drop_drop]
            congr 1
            omega
          rw [interiorTokens, ← h3, List.take_append_drop]
        refine ⟨t.take 2 ++ (interiorTokens t).take (leadingNewlines (interiorTokens t)),
          (interiorTokens t).drop ((interiorTokens t).length -
            leadingNewlines (interiorTokens t).reverse) ++ t.drop (t.length - 2), ?_⟩
        calc (t.take 2 ++ (interiorTokens t).take (leadingNewlines (interiorTokens t))) ++
              ((interiorTokens t).drop (leadingNewlines (interiorTokens t))).take
                (((interiorTokens t).length - leadingNewlines (interiorTokens t).reverse) -
                  leadingNewlines (interiorTokens t)) ++
              ((interiorTokens t).drop ((interiorTokens t).length -
                leadingNewlines (interiorTokens t).reverse) ++ t.drop (t.length - 2))
            = t.take 2 ++
                (((interiorTokens t).take (leadingNewlines (interiorTokens t)) ++
                  ((interiorTokens t).drop (leadingNewlines (interiorTokens t))).take
                    (((interiorTokens t).length - leadingNewlines (interiorTokens t).reverse) -
                      leadingNewlines (interiorTokens t)) ++
                  (interiorTokens t).drop ((interiorTokens t).length -
                    leadingNewlines (interiorTokens t).reverse)) ++ t.drop (t.length - 2)) := by
              simp [List.append_assoc]
          _ = t.take 2 ++ (interiorTokens t ++ t.drop (t.length - 2)) := by rw [← hdecomp]
          _ = t.take 2 ++ t.drop 2 := by rw [hdrop2]
          _ = t := List.take_append_drop 2 t

/-- Witness for C10: the decomposition obtained at the concrete tokens of
the multi-line interpolation `"${\n foo \n}"`, whose result is the bare
identifier with the surrounding newlines removed. -/
theorem cleanValueExpr_changed_within_interior_witness :
    ∃ a b, (∀ x ∈ a, x.ttype = TokenType.TokenNewline) ∧
      (∀ x ∈ b, x.ttype = TokenType.TokenNewline) ∧
      interiorTokens [⟨TokenType.TokenOQuote, "\""⟩, ⟨TokenType.TokenTemplateInterp, "$\x7b"⟩,
          ⟨TokenType.TokenNewline, "\n"⟩, ⟨TokenType.TokenIdent, "foo"⟩,
          ⟨TokenType.TokenNewline, "\n"⟩, ⟨TokenType.TokenTemplateSeqEnd, "\x7d"⟩,
          ⟨TokenType.TokenCQuote, "\""⟩] =
        a ++ [⟨TokenType.TokenIdent, "foo"⟩] ++ b ∧
      List.IsInfix ([⟨TokenType.TokenIdent, "foo"⟩] : List Token)
        ([⟨TokenType.TokenOQuote, "\""⟩, ⟨TokenType.TokenTemplateInterp, "$\x7b"⟩,
          ⟨TokenType.TokenNewline, "\n"⟩, ⟨TokenType.TokenIdent, "foo"⟩,
          ⟨TokenType.TokenNewline, "\n"⟩, ⟨TokenType.TokenTemplateSeqEnd, "\x7d"⟩,
          ⟨TokenType.TokenCQuote, "\""⟩] : List Token) :=
  cleanValueExpr_changed_within_interior
    [⟨TokenType.TokenOQuote, "\""⟩, ⟨TokenType.TokenTemplateInterp, "$\x7b"⟩,
      ⟨TokenType.TokenNewline, "\n"⟩, ⟨TokenType.TokenIdent, "foo"⟩,
      ⟨TokenType.TokenNewline, "\n"⟩, ⟨TokenType.TokenTemplateSeqEnd, "\x7d"⟩,
      ⟨TokenType.TokenCQuote, "\""⟩]
    [⟨TokenType.TokenIdent, "foo"⟩] (by decide) (by decide)

end TfCleanSyntax
